import Mathlib

/-!
# Verification of the lurk-rs core against its specification

This file gives a shallow embedding, in Lean 4, of the parts of the
`lurk-rs` repository that the specification's checkable claims are about:

* the `LightData` (ZData) self-describing byte codec
  (`src/light_data/mod.rs`);
* the multi-frame packer `MultiFrame::from_frames`, the `precedes`
  relation, `public_inputs`/`public_input_size`, `make_dummy` and
  `blank` (`src/lem/multiframe.rs`);
* the proof-count padding loop of `Groth16Prover::outer_prove` and the
  deterministically seeded `create_groth_params`
  (`src/proof/groth16.rs`);
* `Prover::expected_total_iterations` (`src/proof/mod.rs`);
* the public-parameter disk-cache lookup
  (`src/public_parameters/registry.rs`).

Rust `usize`/`u8` values are modelled as `Nat` (with explicit range
hypotheses where overflow or truncation could matter), `Vec<T>` as
`List`, fallible operations as `Option`/`Except`, and unbounded Rust
loops as fuelled recursions together with lemmas showing the fuel is
never exhausted on the stated domain.
-/

set_option maxRecDepth 100000

namespace Lurk

/-! ## LightData (`src/light_data/mod.rs`)

`enum LightData { Atom(Vec<u8>), Cell(Vec<LightData>) }`. Bytes are
modelled as `Nat`s (every byte the code produces is `< 256`). -/

inductive LightData where
  | Atom : List Nat → LightData
  | Cell : List LightData → LightData

namespace LightData

/-- Fuelled floor-log2, mirroring `usize::ilog2` (defined for inputs `≥ 1`;
the fuel `n` is always sufficient since `ilog2` recurses on `n / 2`). -/
def ilog2_aux : Nat → Nat → Nat
  | 0, _ => 0
  | fuel + 1, n => if 2 ≤ n then ilog2_aux fuel (n / 2) + 1 else 0

/-- `usize::ilog2`: floor of the base-2 logarithm. -/
def ilog2 (n : Nat) : Nat := ilog2_aux n n

/-- `LightData::byte_count`:
`if x == 0 { 1 } else { (x.ilog2() / 8 + 1) as u8 }`.
(The `as u8` cast never truncates for `usize` inputs, whose `ilog2` is
at most 63.) -/
def byte_count (x : Nat) : Nat :=
  if x = 0 then 1 else ilog2 x / 8 + 1

/-- Stated from the spec's words (§8, testable property 7), for
comparison with `byte_count`: `ceil(log2(n+1)/8)`, rendered over `Nat`
using `⌈x/8⌉ = ⌈⌈x⌉/8⌉` and `Nat.clog 2 m = ⌈log2 m⌉`. -/
def spec_byte_count (n : Nat) : Nat := (Nat.clog 2 (n + 1) + 7) / 8

/-- The length field of a value: byte length of an `Atom`, arity of a
`Cell` (`xs.len()` in both `tag` and `ser`). -/
def size_of : LightData → Nat
  | .Atom xs => xs.length
  | .Cell xs => xs.length

/-- The constructor bit of the tag byte: `0b0000_0000` for atoms,
`0b1000_0000` for cells. -/
def tag_base : LightData → Nat
  | .Atom _ => 0x00
  | .Cell _ => 0x80

/-- Whether a value is an `Atom` (for stating the tag's high-bit law). -/
def is_atom_value : LightData → Bool
  | .Atom _ => true
  | .Cell _ => false

/-- The first `k` little-endian base-256 digits of `x`
(`x.to_le_bytes()[..k]`). -/
def leBytes : Nat → Nat → List Nat
  | 0, _ => []
  | k + 1, x => x % 256 :: leBytes k (x / 256)

/-- `LightData::to_trimmed_le_bytes`: the little-endian bytes of `x`,
trimmed to `byte_count x` bytes. -/
def to_trimmed_le_bytes (x : Nat) : List Nat :=
  leBytes (byte_count x) x

/-- `LightData::tag`: the one-byte header of a serialized value. -/
def tag : LightData → Nat
  | .Atom xs =>
    if xs.length = 0 then 0x00
    else if xs.length < 64 then 0x40 + xs.length
    else if xs.length = 64 then 0x40
    else byte_count xs.length
  | .Cell xs =>
    if xs.length = 0 then 0x80
    else if xs.length < 64 then 0xC0 + xs.length
    else if xs.length = 64 then 0xC0
    else 0x80 + byte_count xs.length

/-- `LightData::tag_is_atom`: `x & 0b1000_0000 == 0`. -/
def tag_is_atom (x : Nat) : Bool := x &&& 0x80 == 0

/-- `LightData::tag_is_small`: `x & 0b0100_0000 == 0b0100_0000`. -/
def tag_is_small (x : Nat) : Bool := x &&& 0x40 == 0x40

mutual

/-- `LightData::ser`: the tag byte, then (for the non-small sizes) the
trimmed little-endian length, then the payload. -/
def ser : LightData → List Nat
  | .Atom xs =>
    if xs.length = 0 then [tag (.Atom xs)]
    else if xs.length ≤ 64 then tag (.Atom xs) :: xs
    else tag (.Atom xs) :: (to_trimmed_le_bytes xs.length ++ xs)
  | .Cell xs =>
    if xs.length = 0 then [tag (.Cell xs)]
    else if xs.length ≤ 64 then tag (.Cell xs) :: serList xs
    else tag (.Cell xs) :: (to_trimmed_le_bytes xs.length ++ serList xs)

/-- Serialization of the children of a `Cell`, in order
(`for x in xs { res.extend(x.ser()) }`). -/
def serList : List LightData → List Nat
  | [] => []
  | x :: xs => ser x ++ serList xs

end

/-- The payload bytes following the size header: the atom's bytes, or
the children's serializations in order. -/
def payload : LightData → List Nat
  | .Atom xs => xs
  | .Cell xs => serList xs

/-- The size prefix read by `de_aux`: the small fast path decodes the six
low tag bits directly (with `0` meaning 64); otherwise `size` bytes are
taken from the input and folded **big-endian**
(`size.iter().fold(0, |acc, &x| (acc * 256) + x as usize)`). -/
def readSize (small : Bool) (size : Nat) (i : List Nat) :
    Option (List Nat × Nat) :=
  match small, size with
  | true, 0 => some (i, 64)
  | true, s => some (i, s)
  | false, s =>
    if s ≤ i.length then
      some (i.drop s, (i.take s).foldl (fun acc x => acc * 256 + x) 0)
    else none

/-- `nom::multi::count`: run the parser `p` exactly `k` times,
threading the remaining input. -/
def runCount (p : List Nat → Option (List Nat × LightData)) :
    Nat → List Nat → Option (List Nat × List LightData)
  | 0, i => some (i, [])
  | k + 1, i =>
    match p i with
    | none => none
    | some (i', x) =>
      match runCount p k i' with
      | none => none
      | some (i'', xs) => some (i'', x :: xs)

/-- `LightData::de_aux`, with explicit fuel (each call consumes at least
the tag byte, so fuel `input.length + 1` is never exhausted). -/
def de_aux : Nat → List Nat → Option (List Nat × LightData)
  | 0, _ => none
  | fuel + 1, i =>
    match i with
    | [] => none
    | t :: i =>
      let size := t &&& 0x3F
      if tag_is_atom t then
        match readSize (tag_is_small t) size i with
        | none => none
        | some (i, size) =>
          if size ≤ i.length then some (i.drop size, .Atom (i.take size))
          else none
      else
        match readSize (tag_is_small t) size i with
        | none => none
        | some (i, size) =>
          match runCount (de_aux fuel) size i with
          | none => none
          | some (i, xs) => some (i, .Cell xs)

/-- `LightData::de`: run the parser and drop the unconsumed remainder
(`nom`'s `finish` does not require the input to be exhausted). -/
def de (i : List Nat) : Option LightData :=
  match de_aux (i.length + 1) i with
  | some (_, x) => some x
  | none => none

end LightData

/-! ## Frames and multi-frames (`src/lem/multiframe.rs`)

The embedding is parametric in the pointer type `P` and the field `F`.
The store is abstracted to the one behaviour the embedded functions
consult: `hash_ptr : P → ZPtr F` (assumed total here; the claims under
study never exercise the hashing-failure panic). -/

/-- `ZPtr`: the public `(tag, hash)` identity of an expression, with the
tag already injected into the field. -/
structure ZPtr (F : Type) where
  tag : F
  hash : F
  deriving DecidableEq

/-- Modelled from the spec: `lem::interpreter::Frame` is declared outside
the sampled sources; per §3.6 a frame is a record with `input` and
`output` IO vectors (the only fields `multiframe.rs` consults, besides
cloning the frame whole). -/
structure Frame (P : Type) where
  input : List P
  output : List P
  deriving DecidableEq

/-- `MultiFrame` (`src/lem/multiframe.rs`): the `store`, `lang`, `func`
and `cached_witness` handles are abstracted to the data the embedded
methods read from them — the store's `hash_ptr` and
`func.input_params.len()`. -/
structure MultiFrame (P F : Type) where
  store : Option (P → ZPtr F)
  func_input_params : Nat
  input : Option (List P)
  output : Option (List P)
  frames : Option (List (Frame P))
  reduction_count : Nat

/-- `slice::chunks(count)`: consecutive chunks of length `count`, the
last one possibly shorter. (Rust panics on `count == 0`; here the
result is `[]` in that degenerate case, which no claim exercises.) -/
def chunks (count : Nat) (l : List α) : List (List α) :=
  match count, l with
  | 0, _ => []
  | _ + 1, [] => []
  | c + 1, x :: xs => ((x :: xs).take (c + 1)) :: chunks (c + 1) (xs.drop c)
termination_by l.length
decreasing_by
  simp only [List.length_drop, List.length_cons]
  omega

/-- The body of the `for chunk in frames.chunks(count)` loop of
`MultiFrame::from_frames`: build one multi-frame from a chunk, cloning
the chunk's last frame to pad a short final chunk up to `count`
(`inner_frames.resize(count, last_frame.clone())`). The `[]` case is
the `expect("chunk must not be empty")` panic, which `chunks` never
produces. -/
def mfOfChunk (count : Nat) (h : P → ZPtr F) (nio : Nat) :
    List (Frame P) → MultiFrame P F
  | [] =>
    { store := none, func_input_params := nio, input := none,
      output := none, frames := none, reduction_count := count }
  | f :: rest =>
    { store := some h
      func_input_params := nio
      input := some f.input
      output := some (rest.getLastD f).output
      frames := some (if (f :: rest).length < count
        then (f :: rest) ++
          List.replicate (count - (f :: rest).length) (rest.getLastD f)
        else f :: rest)
      reduction_count := count }

/-- `MultiFrame::from_frames(count, frames, store, lang)`. -/
def from_frames (count : Nat) (frames : List (Frame P)) (h : P → ZPtr F)
    (nio : Nat) : List (MultiFrame P F) :=
  (chunks count frames).map (mfOfChunk count h nio)

/-- `MultiFrame::precedes`: `self.output == maybe_next.input`. -/
def precedes (a b : MultiFrame P F) : Prop := a.output = b.input

/-- One of the two `for` loops of `Provable::public_inputs`: push
`(z_ptr.tag.to_field(), z_ptr.hash)` for each pointer in order. -/
def ioToScalars (h : P → ZPtr F) : List P → List F
  | [] => []
  | p :: ps => (h p).tag :: (h p).hash :: ioToScalars h ps

/-- `Provable::public_inputs` for `MultiFrame`; the `expect` panics on
absent input/output/store are modelled as `none`. -/
def public_inputs? (mf : MultiFrame P F) : Option (List F) :=
  match mf.input, mf.output, mf.store with
  | some inp, some outp, some h => some (ioToScalars h inp ++ ioToScalars h outp)
  | _, _, _ => none

/-- `Provable::public_input_size`: `4 * self.func.input_params.len()`
(tag and hash, for input and for output). -/
def public_input_size (mf : MultiFrame P F) : Nat :=
  4 * mf.func_input_params

/-- `MultiFrameTrait::blank(count, lang)`. -/
def MultiFrame.blank (count : Nat) (nio : Nat) : MultiFrame P F :=
  { store := none, func_input_params := nio, input := none,
    output := none, frames := none, reduction_count := count }

/-- `MultiFrameTrait::make_dummy`: duplicate the given circuit frame
`count` times, with the frame's own IO as the dummy's outer IO. -/
def make_dummy (count : Nat) (circuit_frame : Option (Frame P))
    (h : P → ZPtr F) (nio : Nat) : MultiFrame P F :=
  match circuit_frame with
  | some f =>
    { store := some h, func_input_params := nio, input := some f.input,
      output := some f.output, frames := some (List.replicate count f),
      reduction_count := count }
  | none =>
    { store := some h, func_input_params := nio, input := none,
      output := none, frames := none, reduction_count := count }

/-! ## The `Prover` trait (`src/proof/mod.rs`) -/

/-- `Prover::multiframe_padding_count` (default implementation): `0`. -/
def multiframe_padding_count (_raw_multiframe_count : Nat) : Nat := 0

/-- `Prover::expected_total_iterations` for a prover with reduction
count `rc`. -/
def expected_total_iterations (rc raw_iterations : Nat) : Nat :=
  let full_multiframe_count := raw_iterations / rc
  let unfull_multiframe_frame_count := raw_iterations % rc
  let raw_multiframe_count :=
    full_multiframe_count + (if unfull_multiframe_frame_count ≠ 0 then 1 else 0)
  raw_multiframe_count + multiframe_padding_count raw_multiframe_count

/-! ## Groth16 driver (`src/proof/groth16.rs`) -/

/-- `usize::count_ones`, fuelled (binary popcount; fuel `n` suffices
since the recursion halves its argument). -/
def count_ones_aux : Nat → Nat → Nat
  | 0, _ => 0
  | _ + 1, 0 => 0
  | fuel + 1, n + 1 => (n + 1) % 2 + count_ones_aux fuel ((n + 1) / 2)

/-- `usize::count_ones`: the number of 1-bits. -/
def count_ones (n : Nat) : Nat := count_ones_aux n n

/-- The `while proofs.len().count_ones() != 1 || proofs.len() < 2` loop
of `Groth16Prover::outer_prove`, pushing the dummy proof and statement
in lockstep; fuelled (the padding target is at most one doubling away,
so `proofs.length + 2` steps always suffice). -/
def padLoop (dp : Pf) (ds : St) :
    Nat → List Pf → List St → List Pf × List St
  | 0, ps, ss => (ps, ss)
  | fuel + 1, ps, ss =>
    if count_ones ps.length ≠ 1 ∨ ps.length < 2 then
      padLoop dp ds fuel (ps ++ [dp]) (ss ++ [ds])
    else (ps, ss)

/-- The proof-padding section of `Groth16Prover::outer_prove`
(lines 171–191): if the proof count is not a power of two or is below
2, build one dummy multi-frame from the last real multi-frame's final
frame via `make_dummy`, prove it once, and append copies of that proof
and statement until the count is right. `prove_fn` and `stmt_fn`
abstract `self.prove(..)` and `public_inputs()` on the dummy. -/
def groth_pad (rc : Nat) (last_multiframe : MultiFrame P F)
    (prove_fn : MultiFrame P F → Pf) (stmt_fn : MultiFrame P F → St)
    (h : P → ZPtr F) (nio : Nat)
    (proofs : List Pf) (statements : List St) : List Pf × List St :=
  if count_ones proofs.length ≠ 1 ∨ proofs.length < 2 then
    let dummy_multiframe :=
      make_dummy rc (last_multiframe.frames.bind List.getLast?) h nio
    let dummy_proof := prove_fn dummy_multiframe
    let dummy_statement := stmt_fn dummy_multiframe
    padLoop dummy_proof dummy_statement (proofs.length + 2) proofs statements
  else (proofs, statements)

/-- `DUMMY_RNG_SEED` (`src/proof/groth16.rs`): the fixed 16-byte seed. -/
def DUMMY_RNG_SEED : List Nat :=
  [0x01, 0x03, 0x02, 0x04, 0x05, 0x07, 0x06, 0x08,
   0x09, 0x0A, 0x0B, 0x0C, 0x0D, 0x0C, 0x0B, 0x0A]

/-- `rand_xorshift::XorShiftRng`, abstracted to its state; `from_seed`
initializes the state deterministically from the seed bytes. -/
structure XorShiftRng where
  state : List Nat
  deriving DecidableEq

/-- `XorShiftRng::from_seed`. -/
def XorShiftRng.from_seed (seed : List Nat) : XorShiftRng := ⟨seed⟩

/-- `Groth16Prover::create_groth_params`, abstracted over the backend's
`groth16::generate_random_parameters` (`generate`). A run of the
surrounding process carries ambient OS entropy `os_entropy`; the
function never reads it — the RNG it hands to the backend is seeded
with the constant `DUMMY_RNG_SEED`. -/
def create_groth_params (generate : MultiFrame P F → XorShiftRng → PP)
    (_os_entropy : List Nat) (reduction_count : Nat) (nio : Nat) : PP :=
  let multiframe : MultiFrame P F := MultiFrame.blank reduction_count nio
  let rng := XorShiftRng.from_seed DUMMY_RNG_SEED
  generate multiframe rng

/-! ## Public-parameter registry (`src/public_parameters/registry.rs`) -/

/-- Modelled from the spec: the `public_parameters::error::Error` enum is
declared outside the sampled sources; §7 specifies the
`CacheError(message)` variant used by the registry. -/
inductive CacheErr where
  | CacheError : String → CacheErr
  deriving DecidableEq

/-- The disk cache (`FileIndex`) as seen by one lookup key: what a read
returns (`none` = miss / failed decode), and whether a write succeeds
(`none`) or fails with an I/O error message (`some e`). The two pairs
are the plain (`get`/`set`) and abomonated (`get_raw_bytes` + `decode` /
`set_abomonated`) access paths. -/
structure DiskCache (PP : Type) where
  get : Option PP
  set_result : Option String
  get_raw : Option PP
  set_abomonated_result : Option String

/-- `Registry::get_from_file_cache_or_update_with`: read the disk cache;
on a miss, generate the parameters in memory (`default_pp`) and write
them back, mapping a write failure to `CacheError` — which the trailing
`?` operator propagates as the function's result. -/
def get_from_file_cache_or_update_with (dc : DiskCache PP)
    (abomonated : Bool) (default_pp : PP) : Except CacheErr PP :=
  if abomonated then
    match dc.get_raw with
    | some pp => .ok pp
    | none =>
      match dc.set_abomonated_result with
      | some e => .error (.CacheError ("Disk write error: " ++ e))
      | none => .ok default_pp
  else
    match dc.get with
    | some pp => .ok pp
    | none =>
      match dc.set_result with
      | some e => .error (.CacheError ("Disk write error: " ++ e))
      | none => .ok default_pp

end Lurk

namespace Lurk

/-! ## Helper lemmas: `ilog2` and `byte_count` -/

theorem ilog2_aux_congr :
    ∀ f₁ f₂ n : Nat, n ≤ f₁ → n ≤ f₂ →
      LightData.ilog2_aux f₁ n = LightData.ilog2_aux f₂ n := by
  intro f₁
  induction f₁ with
  | zero =>
    intro f₂ n h1 _
    have hn : n = 0 := by omega
    subst hn
    cases f₂ <;> simp [LightData.ilog2_aux]
  | succ f ih =>
    intro f₂ n h1 h2
    cases n with
    | zero => cases f₂ <;> simp [LightData.ilog2_aux]
    | succ m =>
      cases f₂ with
      | zero => omega
      | succ g =>
        simp only [LightData.ilog2_aux]
        by_cases hm : 2 ≤ m + 1
        · simp only [hm, if_true]
          rw [ih g ((m + 1) / 2) (by omega) (by omega)]
        · simp [hm]

theorem ilog2_rec (n : Nat) (h : 2 ≤ n) :
    LightData.ilog2 n = LightData.ilog2 (n / 2) + 1 := by
  obtain ⟨m, rfl⟩ : ∃ m, n = m + 1 := ⟨n - 1, by omega⟩
  show LightData.ilog2_aux (m + 1) (m + 1) = _
  simp only [LightData.ilog2_aux, h, if_true]
  rw [ilog2_aux_congr m ((m + 1) / 2) ((m + 1) / 2) (by omega) (by omega)]
  rfl

theorem ilog2_spec :
    ∀ n : Nat, 1 ≤ n →
      2 ^ LightData.ilog2 n ≤ n ∧ n < 2 ^ (LightData.ilog2 n + 1) := by
  intro n
  induction n using Nat.strong_induction_on with
  | _ n ih =>
    intro h
    by_cases h2 : 2 ≤ n
    · obtain ⟨hlo, hhi⟩ := ih (n / 2) (by omega) (by omega)
      rw [ilog2_rec n h2]
      have e1 : 2 ^ (LightData.ilog2 (n / 2) + 1) =
          2 * 2 ^ LightData.ilog2 (n / 2) := by ring
      have e2 : 2 ^ (LightData.ilog2 (n / 2) + 1 + 1) =
          2 * 2 ^ (LightData.ilog2 (n / 2) + 1) := by ring
      omega
    · have h1 : n = 1 := by omega
      subst h1
      decide

theorem byte_count_le_eight (n : Nat) (h : n < 2 ^ 64) :
    LightData.byte_count n ≤ 8 := by
  by_cases h0 : n = 0
  · simp [LightData.byte_count, h0]
  · obtain ⟨hlo, _⟩ := ilog2_spec n (by omega)
    have hp : 2 ^ LightData.ilog2 n < 2 ^ 64 := lt_of_le_of_lt hlo h
    have hk : LightData.ilog2 n < 64 :=
      (Nat.pow_lt_pow_iff_right (by norm_num)).mp hp
    simp only [LightData.byte_count, h0, if_false]
    omega

/-- Single-bit conjunction, by bit: `t &&& 2^k` keeps exactly bit `k`. -/
theorem and_two_pow_eq (t k : Nat) :
    t &&& 2 ^ k = if t / 2 ^ k % 2 = 1 then 2 ^ k else 0 := by
  apply Nat.eq_of_testBit_eq
  intro i
  simp only [Nat.testBit_and]
  rcases eq_or_ne i k with rfl | hi
  · rw [Nat.testBit_two_pow_self, Bool.and_true, Nat.testBit_to_div_mod]
    by_cases hb : t / 2 ^ i % 2 = 1 <;> simp [hb, Nat.testBit_two_pow_self]
  · rw [Nat.testBit_two_pow_of_ne (Ne.symm hi), Bool.and_false]
    by_cases hb : t / 2 ^ k % 2 = 1 <;>
      simp [hb, Nat.testBit_two_pow_of_ne (Ne.symm hi)]

/-! ## C7 — `byte_count` matches the spec's closed form -/

/-- **C7.** For every `n`, `byte_count n` equals the spec formula
`ceil(log2(n+1)/8)` — except at `n = 0`, where the spec itself carves
out `byte_count 0 = 1`. -/
theorem byte_count_eq_ceil_log (n : Nat) :
    LightData.byte_count n =
      if n = 0 then 1 else LightData.spec_byte_count n := by
  by_cases h0 : n = 0
  · simp [LightData.byte_count, h0]
  · obtain ⟨hlo, hhi⟩ := ilog2_spec n (by omega)
    have hclog : Nat.clog 2 (n + 1) = LightData.ilog2 n + 1 := by
      have hle : Nat.clog 2 (n + 1) ≤ LightData.ilog2 n + 1 :=
        (Nat.le_pow_iff_clog_le (by norm_num)).mp (by omega)
      have hlt : LightData.ilog2 n < Nat.clog 2 (n + 1) :=
        (Nat.pow_lt_iff_lt_clog (by norm_num)).mp (by omega)
      omega
    simp only [LightData.byte_count, LightData.spec_byte_count, h0,
      if_false, hclog]
    omega

/-! ## C1 — the `de ∘ ser` round-trip (code bug)

`ser` writes a multi-byte length little-endian
(`to_trimmed_le_bytes`), while `de_aux` folds the same bytes
big-endian (`fold(0, |acc, &x| (acc * 256) + x)`), so the round-trip
the repository's own property test asserts fails at the first length
needing two size bytes: an atom of 256 bytes serializes its length as
`[0x00, 0x01]`, which the decoder reads back as `1`. -/

/-- **C1.** `de (ser x) = Ok(x)` fails at `x = Atom([0u8; 256])`: the
decoder returns `Ok(Atom([0]))` instead (it reads the little-endian
length bytes `[0x00, 0x01]` big-endian as `1`). -/
theorem de_ser_fails_at_long_atom :
    LightData.de (LightData.ser (.Atom (List.replicate 256 0))) =
      some (.Atom [0]) ∧
    LightData.de (LightData.ser (.Atom (List.replicate 256 0))) ≠
      some (.Atom (List.replicate 256 0)) := by
  refine ⟨rfl, ?_⟩
  rw [show LightData.de (LightData.ser (.Atom (List.replicate 256 0))) =
    some (.Atom [0]) from rfl]
  intro h
  have h1 : ([0] : List Nat) = List.replicate 256 0 := by
    injection h with h'
    injection h'
  have h2 := congrArg List.length h1
  simp at h2

/-! ## C8 — the byte layout of the serialization header -/

open LightData

theorem and_63_eq (t : Nat) : t &&& 0x3F = t % 64 := by
  have h : (0x3F : Nat) = 2 ^ 6 - 1 := by norm_num
  rw [h, Nat.and_pow_two_sub_one_eq_mod]

theorem tag_is_atom_eq (t : Nat) (ht : t < 256) :
    tag_is_atom t = decide (t < 128) := by
  have h7 : (0x80 : Nat) = 2 ^ 7 := by norm_num
  unfold tag_is_atom
  rw [h7, and_two_pow_eq, show (2 : Nat) ^ 7 = 128 by norm_num]
  by_cases hlt : t < 128
  · rw [if_neg (by omega)]
    simp [hlt]
  · rw [if_pos (by omega)]
    simp [hlt]

theorem tag_is_small_eq (t : Nat) :
    tag_is_small t = decide (t / 64 % 2 = 1) := by
  have h6 : (0x40 : Nat) = 2 ^ 6 := by norm_num
  unfold tag_is_small
  rw [h6, and_two_pow_eq, show (2 : Nat) ^ 6 = 64 by norm_num]
  by_cases hb : t / 64 % 2 = 1 <;> simp [hb]

/-- **C8 (counterexample).** The claim's residual clause — "otherwise
the low 6 bits hold `byte_count(len)` and the next `byte_count(len)`
bytes of the serialization hold the length" — is false at length `0`
(which is neither in `1..=63` nor `64`): the empty atom serializes to
the single byte `0x00`, whose low six bits are `0 ≠ byte_count 0 = 1`,
and no length bytes follow. -/
theorem empty_atom_violates_residual_clause :
    ser (.Atom []) = [0x00] ∧
    tag (.Atom []) &&& 0x3F ≠ byte_count (size_of (.Atom ([] : List Nat))) ∧
    (ser (.Atom [])).length = 1 := ⟨rfl, by decide, rfl⟩

/-- **C8 (amended).** For every value (whose length fits a `usize`),
the first serialized byte is the tag, whose high bit is `0` iff the
value is an atom; lengths `1..=63` are stored in the low 6 bits with
the small-size bit set; length `64` sets the small-size bit with low 6
bits zero; length `0` is the bare constructor byte with nothing
following; and for lengths `≥ 65` the low 6 bits hold
`byte_count(len)` and the next `byte_count(len)` bytes hold the length
little-endian, then the payload. -/
theorem ser_header_layout (d : LightData) (hsz : size_of d < 2 ^ 64) :
    (ser d).head? = some (tag d)
    ∧ tag_is_atom (tag d) = is_atom_value d
    ∧ (size_of d = 0 → ser d = [tag_base d] ∧ tag d = tag_base d)
    ∧ (1 ≤ size_of d → size_of d ≤ 63 →
        tag d = tag_base d + 0x40 + size_of d
        ∧ tag_is_small (tag d) = true
        ∧ tag d &&& 0x3F = size_of d)
    ∧ (size_of d = 64 →
        tag d = tag_base d + 0x40
        ∧ tag_is_small (tag d) = true
        ∧ tag d &&& 0x3F = 0)
    ∧ (65 ≤ size_of d →
        tag d = tag_base d + byte_count (size_of d)
        ∧ tag d &&& 0x3F = byte_count (size_of d)
        ∧ ser d = tag d ::
            (leBytes (byte_count (size_of d)) (size_of d) ++ payload d)) := by
  have hbc : byte_count (size_of d) ≤ 8 := byte_count_le_eight _ hsz
  have hbc1 : 1 ≤ byte_count (size_of d) := by
    unfold byte_count
    split_ifs <;> omega
  cases d with
  | Atom xs =>
    simp only [size_of] at hbc hbc1 ⊢
    have htag : tag (.Atom xs) =
        if xs.length = 0 then 0x00
        else if xs.length < 64 then 0x40 + xs.length
        else if xs.length = 64 then 0x40
        else byte_count xs.length := rfl
    have htlt : tag (.Atom xs) < 128 := by
      rw [htag]; split_ifs <;> omega
    refine ⟨?_, ?_, ?_, ?_, ?_, ?_⟩
    · show (ser (.Atom xs)).head? = _
      simp only [ser]
      split_ifs <;> rfl
    · rw [tag_is_atom_eq _ (by omega)]
      simp [is_atom_value, htlt]
    · intro h0
      constructor
      · simp only [ser, h0, if_pos]
        rw [htag]
        simp [h0, tag_base]
      · rw [htag]; simp [h0, tag_base]
    · intro h1 h63
      have ht : tag (.Atom xs) = 0x40 + xs.length := by
        rw [htag, if_neg (by omega), if_pos (by omega)]
      refine ⟨by rw [ht]; simp [tag_base], ?_, ?_⟩
      · rw [tag_is_small_eq, ht]
        simp only [decide_eq_true_eq]
        omega
      · rw [and_63_eq, ht]
        omega
    · intro h64
      have ht : tag (.Atom xs) = 0x40 := by
        rw [htag, if_neg (by omega), if_neg (by omega), if_pos h64]
      refine ⟨by simp [ht, tag_base], ?_, ?_⟩
      · rw [tag_is_small_eq, ht]
        decide
      · rw [and_63_eq, ht]
    · intro h65
      have ht : tag (.Atom xs) = byte_count xs.length := by
        rw [htag, if_neg (by omega), if_neg (by omega), if_neg (by omega)]
      refine ⟨by rw [ht]; simp [tag_base], ?_, ?_⟩
      · rw [and_63_eq, ht]
        omega
      · show ser (.Atom xs) = _
        simp only [ser, if_neg (by omega : ¬xs.length = 0),
          if_neg (by omega : ¬xs.length ≤ 64)]
        rfl
  | Cell xs =>
    simp only [size_of] at hbc hbc1 ⊢
    have htag : tag (.Cell xs) =
        if xs.length = 0 then 0x80
        else if xs.length < 64 then 0xC0 + xs.length
        else if xs.length = 64 then 0xC0
        else 0x80 + byte_count xs.length := rfl
    have htge : 128 ≤ tag (.Cell xs) ∧ tag (.Cell xs) < 256 := by
      rw [htag]; split_ifs <;> omega
    refine ⟨?_, ?_, ?_, ?_, ?_, ?_⟩
    · show (ser (.Cell xs)).head? = _
      simp only [ser]
      split_ifs <;> rfl
    · rw [tag_is_atom_eq _ (by omega)]
      simp only [is_atom_value, decide_eq_false_iff_not]
      omega
    · intro h0
      constructor
      · simp only [ser, h0, if_pos]
        rw [htag]
        simp [h0, tag_base]
      · rw [htag]; simp [h0, tag_base]
    · intro h1 h63
      have ht : tag (.Cell xs) = 0xC0 + xs.length := by
        rw [htag, if_neg (by omega), if_pos (by omega)]
      refine ⟨by simp only [ht, tag_base], ?_, ?_⟩
      · rw [tag_is_small_eq, ht]
        simp only [decide_eq_true_eq]
        omega
      · rw [and_63_eq, ht]
        omega
    · intro h64
      have ht : tag (.Cell xs) = 0xC0 := by
        rw [htag, if_neg (by omega), if_neg (by omega), if_pos h64]
      refine ⟨by simp [ht, tag_base], ?_, ?_⟩
      · rw [tag_is_small_eq, ht]
        decide
      · rw [and_63_eq, ht]
    · intro h65
      have ht : tag (.Cell xs) = 0x80 + byte_count xs.length := by
        rw [htag, if_neg (by omega), if_neg (by omega), if_neg (by omega)]
      refine ⟨by rw [ht]; simp [tag_base], ?_, ?_⟩
      · rw [and_63_eq, ht]
        omega
      · show ser (.Cell xs) = _
        simp only [ser, if_neg (by omega : ¬xs.length = 0),
          if_neg (by omega : ¬xs.length ≤ 64)]
        rfl

/-- Witness for C8 at the 65-byte atom `Atom([7u8; 65])`: its length
fits a `usize`, and by the amended theorem the tag's low 6 bits hold
`byte_count 65 = 1`. -/
theorem ser_header_layout_witness :
    size_of (.Atom (List.replicate 65 7)) < 2 ^ 64 ∧
    tag (.Atom (List.replicate 65 7)) &&& 0x3F =
      byte_count (size_of (.Atom (List.replicate 65 7))) := by
  have h : size_of (.Atom (List.replicate 65 7)) < 2 ^ 64 := by
    simp only [size_of, List.length_replicate]
    norm_num
  refine ⟨h, ((ser_header_layout (.Atom (List.replicate 65 7)) h).2.2.2.2.2
    (by simp [size_of])).2.1⟩

/-! ## Helper lemmas: `chunks` and `mfOfChunk` -/

theorem chunks_nil (c : Nat) : chunks c ([] : List α) = [] := by
  cases c <;> simp [chunks]

theorem chunks_cons_eq (c : Nat) (l : List α) (hc : 0 < c) (hl : l ≠ []) :
    chunks c l = l.take c :: chunks c (l.drop c) := by
  obtain ⟨c', rfl⟩ : ∃ c', c = c' + 1 := ⟨c - 1, by omega⟩
  obtain ⟨x, xs, rfl⟩ : ∃ x xs, l = x :: xs := by
    cases l with
    | nil => exact absurd rfl hl
    | cons x xs => exact ⟨x, xs, rfl⟩
  simp [chunks]

theorem chunks_length (c : Nat) (hc : 0 < c) :
    ∀ (n : Nat) (l : List α), l.length ≤ n →
      (chunks c l).length = (l.length + c - 1) / c := by
  intro n
  induction n with
  | zero =>
    intro l h
    have hl : l = [] := List.eq_nil_of_length_eq_zero (by omega)
    subst hl
    rw [chunks_nil]
    simp only [List.length_nil, Nat.zero_add]
    rw [Nat.div_eq_of_lt (by omega)]
  | succ n ih =>
    intro l h
    by_cases hl : l = []
    · subst hl
      rw [chunks_nil]
      simp only [List.length_nil, Nat.zero_add]
      rw [Nat.div_eq_of_lt (by omega)]
    · have h1 : 1 ≤ l.length := List.length_pos.mpr hl
      rw [chunks_cons_eq c l hc hl]
      simp only [List.length_cons]
      rw [ih (l.drop c) (by simp only [List.length_drop]; omega)]
      simp only [List.length_drop]
      rcases le_or_lt l.length c with hle | hlt
      · rw [show l.length - c + c - 1 = c - 1 by omega,
          Nat.div_eq_of_lt (by omega),
          show l.length + c - 1 = l.length - 1 + c by omega,
          Nat.add_div_right _ hc,
          Nat.div_eq_of_lt (by omega)]
      · rw [show l.length - c + c - 1 = l.length - 1 by omega,
          show l.length + c - 1 = l.length - 1 + c by omega,
          Nat.add_div_right _ hc]

theorem chunks_getElem (c : Nat) (hc : 0 < c) :
    ∀ (i : Nat) (l : List α) (h : i < (chunks c l).length),
      (chunks c l)[i] = (l.drop (c * i)).take c := by
  intro i
  induction i with
  | zero =>
    intro l h
    have hl : l ≠ [] := by
      intro he
      subst he
      rw [chunks_nil] at h
      simp at h
    simp only [chunks_cons_eq c l hc hl, List.getElem_cons_zero,
      Nat.mul_zero, List.drop_zero]
  | succ i ih =>
    intro l h
    have hl : l ≠ [] := by
      intro he
      subst he
      rw [chunks_nil] at h
      simp at h
    simp only [chunks_cons_eq c l hc hl, List.length_cons] at h
    simp only [chunks_cons_eq c l hc hl, List.getElem_cons_succ]
    rw [ih (l.drop c) (by omega), List.drop_drop,
      show c + c * i = c * (i + 1) by ring]

/-- Index bound transfer: a chunk index below the chunk count starts
strictly inside the list. -/
theorem chunks_index_lt (c : Nat) (hc : 0 < c) {i len : Nat}
    (h : i < (len + c - 1) / c) : c * i < len := by
  have h1 : (i + 1) * c ≤ len + c - 1 := (Nat.le_div_iff_mul_le hc).mp h
  have h2 : (i + 1) * c = c * i + c := by ring
  omega

theorem getLastD_eq_getLast (l : List α) (a : α) :
    l.getLastD a = (a :: l).getLast (List.cons_ne_nil a l) := by
  induction l generalizing a with
  | nil => rfl
  | cons b t ih =>
    rw [List.getLastD_cons, ih b, List.getLast_cons_cons]

theorem mfOfChunk_input (c : Nat) (h : P → ZPtr F) (nio : Nat)
    (ch : List (Frame P)) (hne : ch ≠ []) :
    (mfOfChunk c h nio ch).input = some ((ch.head hne).input) := by
  cases ch with
  | nil => exact absurd rfl hne
  | cons f rest => rfl

theorem mfOfChunk_output (c : Nat) (h : P → ZPtr F) (nio : Nat)
    (ch : List (Frame P)) (hne : ch ≠ []) :
    (mfOfChunk c h nio ch).output = some ((ch.getLast hne).output) := by
  cases ch with
  | nil => exact absurd rfl hne
  | cons f rest =>
    show some ((rest.getLastD f).output) = _
    rw [getLastD_eq_getLast]

theorem mfOfChunk_frames (c : Nat) (h : P → ZPtr F) (nio : Nat)
    (ch : List (Frame P)) (hne : ch ≠ []) :
    (mfOfChunk c h nio ch).frames =
      some (if ch.length < c
        then ch ++ List.replicate (c - ch.length) (ch.getLast hne)
        else ch) := by
  cases ch with
  | nil => exact absurd rfl hne
  | cons f rest =>
    simp only [mfOfChunk, getLastD_eq_getLast]

/-! ## C3 — successive multi-frames satisfy `precedes` -/

/-- **C3.** If each frame's output equals the next frame's input, then
for the multi-frame sequence produced by `from_frames`,
`m_i.output == m_{i+1}.input` (the `precedes` relation) holds for every
pair of successive multi-frames. -/
theorem from_frames_precedes (c : Nat) (l : List (Frame P))
    (h : P → ZPtr F) (nio : Nat) (hc : 0 < c)
    (hchain : ∀ i (_ : i + 1 < l.length), l[i].output = l[i + 1].input) :
    ∀ i (hi : i + 1 < (from_frames c l h nio).length),
      precedes ((from_frames c l h nio)[i])
        ((from_frames c l h nio)[i + 1]) := by
  intro i hi
  have hlen : (from_frames c l h nio).length = (chunks c l).length := by
    simp [from_frames]
  have hi' : i + 1 < (chunks c l).length := hlen ▸ hi
  have hL : 1 ≤ l.length := by
    rcases Nat.eq_zero_or_pos l.length with h0 | h1
    · exfalso
      have : l = [] := List.eq_nil_of_length_eq_zero h0
      subst this
      rw [chunks_nil] at hi'
      simp at hi'
    · exact h1
  have hclen := chunks_length c hc l.length l le_rfl
  have hnext : c * (i + 1) < l.length :=
    chunks_index_lt c hc (by omega)
  have hmul : c * (i + 1) = c * i + c := by ring
  have hcur : c * i < l.length := by omega
  -- the two chunks
  have hchi : (chunks c l)[i] = (l.drop (c * i)).take c :=
    chunks_getElem c hc i l (by omega)
  have hchi1 : (chunks c l)[i + 1] = (l.drop (c * (i + 1))).take c :=
    chunks_getElem c hc (i + 1) l (by omega)
  -- chunk i is full, chunk i+1 is non-empty
  have hfull : ((l.drop (c * i)).take c).length = c := by
    simp only [List.length_take, List.length_drop]
    omega
  have hne : ((l.drop (c * i)).take c) ≠ [] := by
    intro he
    rw [he] at hfull
    simp at hfull
    omega
  have hne1 : ((l.drop (c * (i + 1))).take c) ≠ [] := by
    intro he
    have := congrArg List.length he
    simp only [List.length_take, List.length_drop, List.length_nil] at this
    omega
  -- identify the border frames
  have hlast : ((l.drop (c * i)).take c).getLast hne = l[c * i + (c - 1)] := by
    rw [List.getLast_eq_getElem]
    simp only [hfull]
    rw [List.getElem_take, List.getElem_drop]
  have hhead : ((l.drop (c * (i + 1))).take c).head hne1 = l[c * (i + 1)] := by
    rw [List.head_eq_getElem_zero]
    rw [List.getElem_take, List.getElem_drop]
    simp only [Nat.add_zero]
  show ((from_frames c l h nio)[i]).output = ((from_frames c l h nio)[i + 1]).input
  have hmf1 : ((from_frames c l h nio)[i]) =
      mfOfChunk c h nio ((chunks c l)[i]) := by
    simp only [from_frames, List.getElem_map]
  have hmf2 : ((from_frames c l h nio)[i + 1]) =
      mfOfChunk c h nio ((chunks c l)[i + 1]) := by
    simp only [from_frames, List.getElem_map]
  rw [hmf1, hmf2]
  conv_lhs => rw [hchi]
  conv_rhs => rw [hchi1]
  rw [mfOfChunk_output c h nio _ hne, mfOfChunk_input c h nio _ hne1,
    hlast, hhead]
  have hch := hchain (c * i + (c - 1)) (by omega)
  have hidx : c * (i + 1) = c * i + (c - 1) + 1 := by omega
  simp only [hidx]
  rw [hch]

/-- Witness for C3: three chained frames packed with reduction count 2
produce two multi-frames, and the first precedes the second. -/
theorem from_frames_precedes_witness :
    precedes
      ((from_frames 2
        [⟨[0], [1]⟩, ⟨[1], [2]⟩, ⟨[2], [3]⟩]
        (fun p => ZPtr.mk p p) 1).get
        ⟨0, by simp [from_frames, chunks]⟩)
      ((from_frames 2
        [⟨[0], [1]⟩, ⟨[1], [2]⟩, ⟨[2], [3]⟩]
        (fun p => ZPtr.mk p p) 1).get
        ⟨1, by simp [from_frames, chunks]⟩) := by
  exact from_frames_precedes 2 _ _ 1 (by omega)
    (by
      intro i hi
      match i with
      | 0 => rfl
      | 1 => rfl
      | n + 2 =>
        simp only [List.length_cons, List.length_nil] at hi
        omega)
    0 (by simp [from_frames, chunks])

/-! ## C2 — padding of the short final chunk -/

/-- **C2 (counterexample).** `from_frames` does clone the last real
frame to fill a short final chunk, but the claim's second half —
"every such padding frame satisfies `input == output`" — fails for a
frame sequence whose last frame is not a fixpoint: one frame
`{input: [0], output: [1]}` packed at reduction count 2 yields a
padding frame with `input = [0] ≠ [1] = output`. -/
theorem from_frames_padding_not_fixpoint :
    ((from_frames 2 [⟨[0], [1]⟩] (fun p => ZPtr.mk p p) 1).map
      (fun mf => mf.frames)) =
        [some [⟨[0], [1]⟩, ⟨[0], [1]⟩]] ∧
    (Frame.mk [0] [1] : Frame Nat).input ≠ (Frame.mk [0] [1]).output := by
  constructor
  · simp [from_frames, chunks, mfOfChunk]
  · decide

/-- **C2 (amended).** For every non-empty frame sequence whose length
is not a multiple of the reduction count `c`, `from_frames` fills the
short final chunk by cloning the last real frame up to width `c`; the
padding frames therefore satisfy `input == output` whenever the last
real frame does (which is the case for the terminal frames the driver
feeds it, but not for arbitrary frames). -/
theorem from_frames_final_padding (c : Nat) (l : List (Frame P))
    (h : P → ZPtr F) (nio : Nat) (hc : 0 < c) (hl : l ≠ [])
    (hr : l.length % c ≠ 0) :
    ∃ mf, (from_frames c l h nio).getLast? = some mf
      ∧ mf.frames = some (l.drop (l.length - l.length % c)
          ++ List.replicate (c - l.length % c) (l.getLast hl))
      ∧ ((l.getLast hl).input = (l.getLast hl).output →
          ∀ f ∈ List.replicate (c - l.length % c) (l.getLast hl),
            f.input = f.output) := by
  have hL : 1 ≤ l.length := List.length_pos.mpr hl
  have hrc : l.length % c < c := Nat.mod_lt _ hc
  have hdm := Nat.div_add_mod l.length c
  have hclen := chunks_length c hc l.length l le_rfl
  have hnc : (chunks c l).length = l.length / c + 1 := by
    rw [hclen]
    have h2 : c * (l.length / c + 1) = c * (l.length / c) + c := by ring
    rw [show l.length + c - 1 = (l.length % c - 1) + c * (l.length / c + 1)
      by omega]
    rw [Nat.add_mul_div_left _ _ hc, Nat.div_eq_of_lt (by omega)]
    omega
  have hflen : (from_frames c l h nio).length = l.length / c + 1 := by
    simp only [from_frames, List.length_map]
    exact hnc
  have hq : l.length / c < (chunks c l).length := by omega
  have hq2 : l.length / c < (from_frames c l h nio).length := by omega
  have hch : (chunks c l)[l.length / c] =
      (l.drop (c * (l.length / c))).take c :=
    chunks_getElem c hc _ l hq
  have hcq : c * (l.length / c) = l.length - l.length % c := by omega
  have hdroplen : (l.drop (l.length - l.length % c)).length =
      l.length % c := by
    simp only [List.length_drop]
    omega
  have htake : (l.drop (l.length - l.length % c)).take c
      = l.drop (l.length - l.length % c) :=
    List.take_of_length_le (by rw [hdroplen]; omega)
  have hne : l.drop (l.length - l.length % c) ≠ [] := by
    intro he
    have h3 := congrArg List.length he
    rw [hdroplen] at h3
    simp at h3
    omega
  have hlastdrop : (l.drop (l.length - l.length % c)).getLast hne
      = l.getLast hl := by
    rw [List.getLast_eq_getElem, List.getLast_eq_getElem, List.getElem_drop]
    simp only [List.length_drop]
    have hidx : l.length - l.length % c
        + (l.length - (l.length - l.length % c) - 1) = l.length - 1 := by
      omega
    simp only [hidx]
  refine ⟨(from_frames c l h nio).get ⟨l.length / c, hq2⟩, ?_, ?_, ?_⟩
  · have hidx2 : (from_frames c l h nio).length - 1 = l.length / c := by
      rw [hflen, Nat.add_sub_cancel]
    rw [List.getLast?_eq_getElem?, hidx2, List.getElem?_eq_getElem hq2]
    simp [List.get_eq_getElem]
  · have hmf : (from_frames c l h nio).get ⟨l.length / c, hq2⟩
        = mfOfChunk c h nio ((chunks c l)[l.length / c]) := by
      simp [from_frames]
    rw [hmf, hch, hcq, htake]
    rw [mfOfChunk_frames c h nio _ hne]
    rw [if_pos (by rw [hdroplen]; omega)]
    rw [hdroplen, hlastdrop]
  · intro hfix f hf
    rw [List.eq_of_mem_replicate hf]
    exact hfix

/-- Witness for C2: two frames whose last one is a fixpoint, packed at
reduction count 3: the single multi-frame's inner frames are the chunk
plus one clone of the last frame. -/
theorem from_frames_final_padding_witness :
    ∃ mf, (from_frames 3 [⟨[0], [5]⟩, ⟨[5], [5]⟩]
        (fun p => ZPtr.mk p p) 1).getLast? = some mf
      ∧ mf.frames = some [⟨[0], [5]⟩, ⟨[5], [5]⟩, ⟨[5], [5]⟩] := by
  obtain ⟨mf, h1, h2, h3⟩ := from_frames_final_padding 3
    [⟨[0], [5]⟩, ⟨[5], [5]⟩] (fun p => ZPtr.mk p p) 1
    (by omega) (by simp) (by decide)
  refine ⟨mf, h1, ?_⟩
  rw [h2]
  rfl

/-! ## C10 — multi-frame count matches `expected_total_iterations` -/

/-- **C10.** For a non-empty frame sequence and positive reduction
count, `from_frames` produces exactly `⌈n / c⌉` multi-frames, and this
equals `Prover::expected_total_iterations n` (whose default
`multiframe_padding_count` is zero). -/
theorem from_frames_count (c : Nat) (l : List (Frame P)) (h : P → ZPtr F)
    (nio : Nat) (hc : 0 < c) (hl : 0 < l.length) :
    (from_frames c l h nio).length = (l.length + c - 1) / c
    ∧ (from_frames c l h nio).length
        = expected_total_iterations c l.length := by
  have h1 : (from_frames c l h nio).length = (l.length + c - 1) / c := by
    simp only [from_frames, List.length_map]
    exact chunks_length c hc l.length l le_rfl
  refine ⟨h1, ?_⟩
  rw [h1]
  unfold expected_total_iterations multiframe_padding_count
  have hdm := Nat.div_add_mod l.length c
  have hrc : l.length % c < c := Nat.mod_lt _ hc
  by_cases hr : l.length % c = 0
  · simp only [hr, ne_eq, not_true_eq_false, if_false, Nat.add_zero]
    rw [show l.length + c - 1 = (c - 1) + c * (l.length / c) by omega]
    rw [Nat.add_mul_div_left _ _ hc, Nat.div_eq_of_lt (by omega)]
    omega
  · simp only [ne_eq, hr, not_false_eq_true, if_true, Nat.add_zero]
    rw [show l.length + c - 1 = (l.length % c - 1) + c * (l.length / c + 1) by
      have h2 : c * (l.length / c + 1) = c * (l.length / c) + c := by ring
      omega]
    rw [Nat.add_mul_div_left _ _ hc, Nat.div_eq_of_lt (by omega)]
    omega

/-- Witness for C10: three frames at reduction count 2 give
`⌈3/2⌉ = 2 = expected_total_iterations 2 3` multi-frames. -/
theorem from_frames_count_witness :
    (from_frames 2 [⟨[0], [1]⟩, ⟨[1], [2]⟩, ⟨[2], [3]⟩]
      (fun p => ZPtr.mk p p) 1).length = expected_total_iterations 2 3 := by
  have h := (from_frames_count 2
    [⟨[0], [1]⟩, ⟨[1], [2]⟩, ⟨[2], [3]⟩] (fun p => ZPtr.mk p p) 1
    (by omega) (by simp)).2
  simpa using h

/-! ## C4 — public input vector: size and layout -/

theorem ioToScalars_length (h : P → ZPtr F) (l : List P) :
    (ioToScalars h l).length = 2 * l.length := by
  induction l with
  | nil => rfl
  | cons p ps ih =>
    simp only [ioToScalars, List.length_cons, ih]
    omega

theorem ioToScalars_getElem_even (h : P → ZPtr F) :
    ∀ (l : List P) (j : Nat) (hj : j < l.length),
      (ioToScalars h l)[2 * j]? = some ((h l[j]).tag) := by
  intro l
  induction l with
  | nil =>
    intro j hj
    simp at hj
  | cons p ps ih =>
    intro j hj
    cases j with
    | zero => simp [ioToScalars]
    | succ k =>
      have hexp : 2 * (k + 1) = 2 * k + 1 + 1 := by ring
      rw [hexp]
      simp only [ioToScalars, List.getElem?_cons_succ]
      rw [ih k (by simp only [List.length_cons] at hj; omega)]
      simp

theorem ioToScalars_getElem_odd (h : P → ZPtr F) :
    ∀ (l : List P) (j : Nat) (hj : j < l.length),
      (ioToScalars h l)[2 * j + 1]? = some ((h l[j]).hash) := by
  intro l
  induction l with
  | nil =>
    intro j hj
    simp at hj
  | cons p ps ih =>
    intro j hj
    cases j with
    | zero => simp [ioToScalars]
    | succ k =>
      have hexp : 2 * (k + 1) + 1 = 2 * k + 1 + 1 + 1 := by ring
      rw [hexp]
      simp only [ioToScalars, List.getElem?_cons_succ]
      rw [ih k (by simp only [List.length_cons] at hj; omega)]
      simp

/-- **C4.** When the multi-frame's input and output each hold one
pointer per IO component, `public_inputs` returns a vector of length
`public_input_size = 4 ·` (number of IO components) — `12` when the IO
is `(expr, env, cont)` — laid out as `(tag, hash)` of each input
component followed by `(tag, hash)` of each output component. -/
theorem public_inputs_layout (mf : MultiFrame P F) (inp outp : List P)
    (h : P → ZPtr F)
    (hin : mf.input = some inp) (hout : mf.output = some outp)
    (hst : mf.store = some h)
    (hlin : inp.length = mf.func_input_params)
    (hlout : outp.length = mf.func_input_params) :
    ∃ v, public_inputs? mf = some v
      ∧ v.length = public_input_size mf
      ∧ public_input_size mf = 4 * mf.func_input_params
      ∧ (mf.func_input_params = 3 → public_input_size mf = 12)
      ∧ (∀ j (hj : j < inp.length),
          v[2 * j]? = some ((h inp[j]).tag)
          ∧ v[2 * j + 1]? = some ((h inp[j]).hash))
      ∧ (∀ j (hj : j < outp.length),
          v[2 * inp.length + 2 * j]? = some ((h outp[j]).tag)
          ∧ v[2 * inp.length + 2 * j + 1]? = some ((h outp[j]).hash)) := by
  refine ⟨ioToScalars h inp ++ ioToScalars h outp, ?_, ?_, rfl, ?_, ?_, ?_⟩
  · simp [public_inputs?, hin, hout, hst]
  · simp only [List.length_append, ioToScalars_length, public_input_size]
    omega
  · intro h3
    simp [public_input_size, h3]
  · intro j hj
    constructor
    · rw [List.getElem?_append_left (by rw [ioToScalars_length]; omega)]
      exact ioToScalars_getElem_even h inp j hj
    · rw [List.getElem?_append_left (by rw [ioToScalars_length]; omega)]
      exact ioToScalars_getElem_odd h inp j hj
  · intro j hj
    have hA : (ioToScalars h inp).length = 2 * inp.length :=
      ioToScalars_length h inp
    constructor
    · rw [List.getElem?_append_right (by omega)]
      rw [show 2 * inp.length + 2 * j - (ioToScalars h inp).length = 2 * j
        by omega]
      exact ioToScalars_getElem_even h outp j hj
    · rw [List.getElem?_append_right (by omega)]
      rw [show 2 * inp.length + 2 * j + 1 - (ioToScalars h inp).length
          = 2 * j + 1 by omega]
      exact ioToScalars_getElem_odd h outp j hj

/-- Witness for C4: a multi-frame with three-component IO has a
12-element public input vector. -/
theorem public_inputs_layout_witness :
    ∃ v, public_inputs? (MultiFrame.mk (some (fun p => ZPtr.mk p (p + 1)))
        3 (some [1, 2, 3]) (some [4, 5, 6]) none 5 : MultiFrame Nat Nat)
      = some v ∧ v.length = 12 := by
  obtain ⟨v, h1, h2, h3, _⟩ := public_inputs_layout
    (MultiFrame.mk (some (fun p => ZPtr.mk p (p + 1)))
      3 (some [1, 2, 3]) (some [4, 5, 6]) none 5)
    [1, 2, 3] [4, 5, 6] (fun p => ZPtr.mk p (p + 1))
    rfl rfl rfl rfl rfl
  exact ⟨v, h1, by rw [h2]; rfl⟩

/-! ## C5 — proof-count padding to a power of two -/

theorem count_ones_aux_congr :
    ∀ f₁ f₂ n : Nat, n ≤ f₁ → n ≤ f₂ →
      count_ones_aux f₁ n = count_ones_aux f₂ n := by
  intro f₁
  induction f₁ with
  | zero =>
    intro f₂ n h1 _
    have hn : n = 0 := by omega
    subst hn
    cases f₂ <;> rfl
  | succ f ih =>
    intro f₂ n h1 h2
    cases n with
    | zero => cases f₂ <;> rfl
    | succ m =>
      cases f₂ with
      | zero => omega
      | succ g =>
        simp only [count_ones_aux]
        rw [ih g ((m + 1) / 2) (by omega) (by omega)]

theorem count_ones_rec (n : Nat) (h : 1 ≤ n) :
    count_ones n = n % 2 + count_ones (n / 2) := by
  obtain ⟨m, rfl⟩ : ∃ m, n = m + 1 := ⟨n - 1, by omega⟩
  show count_ones_aux (m + 1) (m + 1) = _
  simp only [count_ones_aux]
  rw [count_ones_aux_congr m ((m + 1) / 2) ((m + 1) / 2) (by omega) (by omega)]
  rfl

theorem count_ones_eq_zero : ∀ n : Nat, count_ones n = 0 → n = 0 := by
  intro n
  induction n using Nat.strong_induction_on with
  | _ n ih =>
    intro h
    by_contra hne
    rw [count_ones_rec n (by omega)] at h
    have h3 : count_ones (n / 2) = 0 := by omega
    have h4 : n / 2 = 0 := ih (n / 2) (by omega) h3
    omega

theorem count_ones_two_pow (k : Nat) : count_ones (2 ^ k) = 1 := by
  induction k with
  | zero => rfl
  | succ k ih =>
    rw [count_ones_rec _ (Nat.one_le_pow _ _ (by norm_num))]
    have h1 : 2 ^ (k + 1) % 2 = 0 := by
      rw [Nat.pow_succ]
      simp [Nat.mul_mod_left]
    have h2 : 2 ^ (k + 1) / 2 = 2 ^ k := by
      rw [Nat.pow_succ, Nat.mul_div_cancel _ (by norm_num)]
    rw [h1, h2, ih]

theorem count_ones_eq_one : ∀ n : Nat, count_ones n = 1 → ∃ k, n = 2 ^ k := by
  intro n
  induction n using Nat.strong_induction_on with
  | _ n ih =>
    intro h
    have hn : n ≠ 0 := by
      intro h0
      subst h0
      exact absurd h (by decide)
    rw [count_ones_rec n (by omega)] at h
    by_cases hpar : n % 2 = 0
    · have h3 : count_ones (n / 2) = 1 := by omega
      obtain ⟨k, hk⟩ := ih (n / 2) (by omega) h3
      refine ⟨k + 1, ?_⟩
      rw [Nat.pow_succ]
      omega
    · have h3 : count_ones (n / 2) = 0 := by omega
      have h4 : n / 2 = 0 := count_ones_eq_zero _ h3
      refine ⟨0, ?_⟩
      rw [pow_zero]
      omega

/-- The padding loop reaches the least stopping point `t` (a proof
count with a single 1-bit that is at least 2) and appends exactly
`t - proofs.length` dummies to both lists. -/
theorem padLoop_eq (dp : Pf) (ds : St) :
    ∀ (fuel : Nat) (ps : List Pf) (ss : List St) (t : Nat),
      (count_ones t = 1 ∧ 2 ≤ t) →
      (∀ m, ps.length ≤ m → m < t → ¬(count_ones m = 1 ∧ 2 ≤ m)) →
      ps.length ≤ t → t - ps.length ≤ fuel →
      padLoop dp ds fuel ps ss =
        (ps ++ List.replicate (t - ps.length) dp,
         ss ++ List.replicate (t - ps.length) ds) := by
  intro fuel
  induction fuel with
  | zero =>
    intro ps ss t ht hmin hle hfuel
    have heq : t = ps.length := by omega
    subst heq
    simp [padLoop]
  | succ fuel ih =>
    intro ps ss t ht hmin hle hfuel
    by_cases hstop : count_ones ps.length = 1 ∧ 2 ≤ ps.length
    · have heq : t = ps.length := by
        by_contra hne
        exact hmin ps.length le_rfl (by omega) hstop
      subst heq
      simp only [padLoop]
      rw [if_neg (by omega)]
      simp
    · have hlt : ps.length < t := by
        rcases Nat.lt_or_ge ps.length t with h1 | h1
        · exact h1
        · exact absurd (show t = ps.length by omega) (fun he => hstop (he ▸ ht))
      simp only [padLoop]
      rw [if_pos (by omega)]
      rw [ih (ps ++ [dp]) (ss ++ [ds]) t ht
        (by
          intro m hm1 hm2
          refine hmin m ?_ hm2
          simp only [List.length_append, List.length_cons,
            List.length_nil] at hm1
          omega)
        (by
          simp only [List.length_append, List.length_cons, List.length_nil]
          omega)
        (by
          simp only [List.length_append, List.length_cons, List.length_nil]
          omega)]
      have hlen1 : (ps ++ [dp]).length = ps.length + 1 := by simp
      rw [hlen1]
      have hcount : t - ps.length = (t - (ps.length + 1)) + 1 := by omega
      rw [hcount]
      simp only [List.replicate_succ]
      simp [List.append_assoc]

/-- **C5.** Whenever the multi-frame proof count is not a power of two
or is below 2, `outer_prove` appends copies of one dummy proof — built
by `make_dummy` from the last real multi-frame's final frame, whose
clones are the dummy's frames — until the number of proofs equals the
number of statements and is the smallest count that is a power of two,
at least 2, and at least the original multi-frame count. -/
theorem groth_pad_spec (rc : Nat) (last_mf : MultiFrame P F)
    (prove_fn : MultiFrame P F → Pf) (stmt_fn : MultiFrame P F → St)
    (h : P → ZPtr F) (nio : Nat)
    (proofs : List Pf) (statements : List St)
    (hlen : proofs.length = statements.length)
    (hpos : 1 ≤ proofs.length) :
    ∃ pad,
      groth_pad rc last_mf prove_fn stmt_fn h nio proofs statements
        = (proofs ++ List.replicate pad
            (prove_fn (make_dummy rc (last_mf.frames.bind List.getLast?) h nio)),
           statements ++ List.replicate pad
            (stmt_fn (make_dummy rc (last_mf.frames.bind List.getLast?) h nio)))
      ∧ statements.length + pad = proofs.length + pad
      ∧ (∃ k, proofs.length + pad = 2 ^ k)
      ∧ 2 ≤ proofs.length + pad
      ∧ (∀ m, (∃ k, m = 2 ^ k) → 2 ≤ m → proofs.length ≤ m →
          proofs.length + pad ≤ m)
      ∧ (∀ f, last_mf.frames.bind List.getLast? = some f →
          (make_dummy rc (some f) h nio).frames
            = some (List.replicate rc f)) := by
  set n := proofs.length with hn
  set t := 2 ^ Nat.clog 2 (max 2 n) with htdef
  have hk1 : 1 ≤ Nat.clog 2 (max 2 n) := by
    have h1 : (2 : Nat) ^ 0 < max 2 n := by
      have h2 : (2 : Nat) ≤ max 2 n := le_max_left 2 n
      simp
    have h3 := (Nat.pow_lt_iff_lt_clog (by norm_num : (1 : Nat) < 2)).mp h1
    omega
  have ht2 : 2 ≤ t := by
    calc 2 = 2 ^ 1 := by norm_num
    _ ≤ 2 ^ Nat.clog 2 (max 2 n) := Nat.pow_le_pow_right (by norm_num) hk1
  have htn : n ≤ t := by
    have h1 : max 2 n ≤ t := Nat.le_pow_clog (by norm_num) _
    omega
  have hmin : ∀ m, (∃ k, m = 2 ^ k) → 2 ≤ m → n ≤ m → t ≤ m := by
    rintro m ⟨k, rfl⟩ hm2 hmn
    have h1 : Nat.clog 2 (max 2 n) ≤ k :=
      (Nat.le_pow_iff_clog_le (by norm_num)).mp (by omega)
    exact Nat.pow_le_pow_right (by norm_num) h1
  have hstopt : count_ones t = 1 ∧ 2 ≤ t :=
    ⟨count_ones_two_pow _, ht2⟩
  have hfuel : t - n ≤ n + 2 := by
    rcases le_or_lt n 2 with hle | hgt
    · have hmax : max 2 n = 2 := by omega
      have hclog2 : Nat.clog 2 2 = 1 := by
        have hle1 : Nat.clog 2 2 ≤ 1 :=
          (Nat.le_pow_iff_clog_le (by norm_num)).mp (by norm_num)
        have hge1 : 0 < Nat.clog 2 2 :=
          (Nat.pow_lt_iff_lt_clog (by norm_num)).mp (by norm_num)
        omega
      rw [htdef, hmax, hclog2]
      omega
    · have hmax : max 2 n = n := by omega
      have hlog := Nat.pow_log_le_self 2 (show n ≠ 0 by omega)
      have hclot : Nat.clog 2 n ≤ Nat.log 2 n + 1 :=
        (Nat.le_pow_iff_clog_le (by norm_num)).mp
          (le_of_lt (Nat.lt_pow_succ_log_self (by norm_num) n))
      have hpow : (2:Nat) ^ Nat.clog 2 n ≤ 2 ^ (Nat.log 2 n + 1) :=
        Nat.pow_le_pow_right (by norm_num) hclot
      have hpow2 : (2:Nat) ^ (Nat.log 2 n + 1) = 2 * 2 ^ Nat.log 2 n := by
        ring
      rw [htdef, hmax]
      omega
  have hmin' : ∀ m, n ≤ m → m < t → ¬(count_ones m = 1 ∧ 2 ≤ m) := by
    rintro m hm1 hm2 ⟨hc1, hc2⟩
    obtain ⟨k, rfl⟩ := count_ones_eq_one m hc1
    exact absurd (hmin _ ⟨k, rfl⟩ hc2 hm1) (by omega)
  have hmain : groth_pad rc last_mf prove_fn stmt_fn h nio proofs statements
      = (proofs ++ List.replicate (t - n)
          (prove_fn (make_dummy rc (last_mf.frames.bind List.getLast?) h nio)),
         statements ++ List.replicate (t - n)
          (stmt_fn (make_dummy rc (last_mf.frames.bind List.getLast?) h nio))) := by
    unfold groth_pad
    by_cases hcond : count_ones proofs.length ≠ 1 ∨ proofs.length < 2
    · rw [if_pos hcond]
      rw [← hn]
      exact padLoop_eq _ _ (n + 2) proofs statements t hstopt
        (by rw [← hn]; exact hmin') (by rw [← hn]; omega) (by rw [← hn]; omega)
    · have hstopn : count_ones n = 1 ∧ 2 ≤ n := by
        rw [hn]
        push_neg at hcond
        exact ⟨hcond.1, hcond.2⟩
      have hteq : t = n := by
        have h1 : t ≤ n := by
          obtain ⟨k, hk⟩ := count_ones_eq_one n hstopn.1
          exact hmin n ⟨k, hk⟩ hstopn.2 le_rfl
        omega
      rw [if_neg hcond]
      rw [hteq]
      simp
  refine ⟨t - n, hmain, ?_, ?_, ?_, ?_, ?_⟩
  · omega
  · exact ⟨Nat.clog 2 (max 2 n), by omega⟩
  · omega
  · intro m hk h2 hnm
    have := hmin m hk h2 hnm
    omega
  · intro f hf
    simp [make_dummy]

/-- Witness for C5: three proofs are padded with one copy of the dummy
proof to reach 4 = 2^2. -/
theorem groth_pad_spec_witness :
    ∃ pad,
      groth_pad 2
        (MultiFrame.mk (some (fun p => ZPtr.mk p p)) 1 none none
          (some [⟨[1], [1]⟩]) 2 : MultiFrame Nat Nat)
        (fun _ => (7 : Nat)) (fun _ => (9 : Nat))
        (fun p => ZPtr.mk p p) 1 [1, 2, 3] [4, 5, 6]
        = ([1, 2, 3] ++ List.replicate pad 7,
           [4, 5, 6] ++ List.replicate pad 9)
      ∧ (∃ k, 3 + pad = 2 ^ k) ∧ 2 ≤ 3 + pad := by
  obtain ⟨pad, h1, h2, h3, h4, h5, h6⟩ := groth_pad_spec 2
    (MultiFrame.mk (some (fun p => ZPtr.mk p p)) 1 none none
      (some [⟨[1], [1]⟩]) 2 : MultiFrame Nat Nat)
    (fun _ => (7 : Nat)) (fun _ => (9 : Nat))
    (fun p => ZPtr.mk p p) 1 [1, 2, 3] [4, 5, 6]
    rfl (by decide)
  exact ⟨pad, h1, h3, h4⟩

/-! ## C9 — deterministic Groth16 parameter generation -/

/-- **C9.** `create_groth_params` hands the backend an RNG seeded with
the fixed constant `DUMMY_RNG_SEED`, never the run's ambient entropy:
its result is the same function of `(reduction_count, lang)` in every
run, so any two runs with the same arguments produce identical
parameters (two-run equality). -/
theorem create_groth_params_deterministic
    (generate : MultiFrame P F → XorShiftRng → PP)
    (e₁ e₂ : List Nat) (rc nio : Nat) :
    create_groth_params generate e₁ rc nio
      = generate (MultiFrame.blank rc nio)
          (XorShiftRng.from_seed DUMMY_RNG_SEED)
    ∧ create_groth_params generate e₁ rc nio
      = create_groth_params generate e₂ rc nio :=
  ⟨rfl, rfl⟩

/-! ## C6 — disk-cache write failure during parameter lookup -/

/-- **C6 (counterexample).** A lookup that misses the disk cache and
then fails to write the generated parameters back does **not** return
the in-memory parameters: the `?` after
`.map_err(|e| Error::CacheError(..))` propagates the error, so the
lookup returns `Err(CacheError(..))`. -/
theorem cache_write_failure_returns_error :
    get_from_file_cache_or_update_with
        (DiskCache.mk none (some "io") none (some "io") : DiskCache Nat)
        false 42
      = .error (.CacheError ("Disk write error: " ++ "io"))
    ∧ get_from_file_cache_or_update_with
        (DiskCache.mk none (some "io") none (some "io") : DiskCache Nat)
        false 42 ≠ .ok 42 := by
  refine ⟨rfl, ?_⟩
  intro hcontra
  rw [show get_from_file_cache_or_update_with
      (DiskCache.mk none (some "io") none (some "io") : DiskCache Nat)
      false 42
    = .error (.CacheError ("Disk write error: " ++ "io")) from rfl] at hcontra
  exact Except.noConfusion hcontra

/-- **C6 (amended).** On a disk-cache miss the lookup generates the
parameters in memory and returns them iff the write-back succeeds; a
write failure is reported as `CacheError` and the freshly generated
parameters are *not* returned. (Both the plain and the abomonated
access paths behave this way.) -/
theorem cache_miss_write_result (dc : DiskCache PP) (d : PP) (ab : Bool)
    (hmiss : (if ab then dc.get_raw else dc.get) = none) :
    ((if ab then dc.set_abomonated_result else dc.set_result) = none →
      get_from_file_cache_or_update_with dc ab d = .ok d)
    ∧ (∀ e,
        (if ab then dc.set_abomonated_result else dc.set_result) = some e →
        get_from_file_cache_or_update_with dc ab d
          = .error (.CacheError ("Disk write error: " ++ e))) := by
  cases ab
  · simp only [Bool.false_eq_true, if_false] at hmiss ⊢
    constructor
    · intro hw
      simp [get_from_file_cache_or_update_with, hmiss, hw]
    · intro e hw
      simp [get_from_file_cache_or_update_with, hmiss, hw]
  · simp only [if_true] at hmiss ⊢
    constructor
    · intro hw
      simp [get_from_file_cache_or_update_with, hmiss, hw]
    · intro e hw
      simp [get_from_file_cache_or_update_with, hmiss, hw]

/-- Witness for C6 (amended): a miss whose write-back succeeds returns
the generated parameters. -/
theorem cache_miss_write_result_witness :
    get_from_file_cache_or_update_with
        (DiskCache.mk none none none none : DiskCache Nat) false 42
      = .ok 42 :=
  (cache_miss_write_result
    (DiskCache.mk none none none none) 42 false rfl).1 rfl

end Lurk
